import Mathlib

/-!
Verification of the tilworth utility library's binary transcoding core.

Shallow embedding conventions:
* a JS `Uint8Array` (or generic byte sequence) is a `List Nat` whose members
  are < 256;
* a JS string is a `List Char`;
* JS typed arrays are `JsTypedArray` values (element byte width plus the
  list of element values);
* fallible operations (`atob`, the data-URL parser) return `Option` /
  `Except`.

The definitions follow `src/transcoders.ts`, `src/buffer.ts` and the blob
adapter's `fromDataUrl`; the platform primitives those functions call
(`btoa`, `atob`, `parseInt`, `DataView.setUint16`, the `Uint8Array` store
conversion) are modelled from their ECMAScript / WHATWG definitions.
-/

namespace Tilworth

/-! ### Hex transcoder (`hex` in src/transcoders.ts) -/

/-- Digit character produced by JS `Number.toString(16)` for a nibble:
`0`-`9` then lowercase `a`-`f`. -/
def hexDigit (n : Nat) : Char :=
  if n < 10 then Char.ofNat (48 + n) else Char.ofNat (87 + n)

/-- `hex.encode`: every byte of the input becomes
`b.toString(16).padStart(2, "0")`, i.e. the high-nibble digit then the
low-nibble digit (bytes of a `Uint8Array` are < 256), all concatenated. -/
def hexEncode (bs : List Nat) : List Char :=
  (bs.map (fun b => [hexDigit (b / 16), hexDigit (b % 16)])).flatten

/-- JS `StrWhiteSpace` characters skipped by `parseInt`. -/
def isJsWhitespace (c : Char) : Bool :=
  c.toNat = 9 || c.toNat = 10 || c.toNat = 11 || c.toNat = 12 || c.toNat = 13 ||
  c.toNat = 32 || c.toNat = 160 || c.toNat = 8232 || c.toNat = 8233 || c.toNat = 65279

/-- Value of a single hexadecimal digit character, both cases accepted. -/
def hexDigitVal (c : Char) : Option Nat :=
  if 48 ≤ c.toNat ∧ c.toNat ≤ 57 then some (c.toNat - 48)
  else if 97 ≤ c.toNat ∧ c.toNat ≤ 102 then some (c.toNat - 87)
  else if 65 ≤ c.toNat ∧ c.toNat ≤ 70 then some (c.toNat - 55)
  else none

/-- Longest run of leading hex digits, `none` when there is none
(`parseInt` returns NaN in that case). -/
def parseIntHexDigits (cs : List Char) : Option Nat :=
  let ds := cs.takeWhile (fun c => (hexDigitVal c).isSome)
  if ds.isEmpty then none
  else some (ds.foldl (fun acc c => acc * 16 + (hexDigitVal c).getD 0) 0)

/-- With radix 16, `parseInt` strips one leading `0x` / `0X`. -/
def stripHexPfx (cs : List Char) : List Char :=
  match cs with
  | c0 :: c1 :: rest => if c0 = '0' ∧ (c1 = 'x' ∨ c1 = 'X') then rest else cs
  | _ => cs

/-- Optional leading sign: returns (negative?, remaining characters). -/
def signSplit (t : List Char) : Bool × List Char :=
  match t with
  | c :: rest => if c = '-' then (true, rest) else if c = '+' then (false, rest) else (false, t)
  | [] => (false, [])

/-- Sign application and digit reading after whitespace skipping. -/
def parseIntHexSigned (p : Bool × List Char) : Option Int :=
  (parseIntHexDigits (stripHexPfx p.2)).map (fun n => if p.1 then -(n : Int) else (n : Int))

/-- ECMAScript `parseInt(s, 16)`: skip whitespace, take an optional sign,
strip an optional `0x`/`0X`, then read the longest hex-digit run; `none`
models NaN. -/
def parseIntHex (cs : List Char) : Option Int :=
  parseIntHexSigned (signSplit (cs.dropWhile isJsWhitespace))

/-- The conversion a `Uint8Array` element store applies to the stored
number (`ToUint8`): NaN becomes 0, other integers are taken mod 256. -/
def toUint8 (v : Option Int) : Nat :=
  match v with
  | none => 0
  | some i => (i % 256).toNat

/-- The loop of `hex.decode`: each two-character group is stored as
`parseInt(group, 16)` into the output `Uint8Array`. -/
def decodePairs : List Char → List Nat
  | c0 :: c1 :: rest => toUint8 (parseIntHex [c0, c1]) :: decodePairs rest
  | _ => []

/-- `hex.decode`: an odd-length input is first `padStart`ed with a single
`'0'`, then decoded pairwise. -/
def hexDecode (s : List Char) : List Nat :=
  decodePairs (if s.length % 2 = 1 then '0' :: s else s)

/-! ### Base64 transcoder (`base64` in src/transcoders.ts) -/

/-- The standard base64 alphabet. -/
def b64Alphabet : List Char :=
  "ABCDEFGHIJKLMNOPQRSTUVWXYZabcdefghijklmnopqrstuvwxyz0123456789+/".data

/-- Character for a 6-bit group. -/
def b64Char (n : Nat) : Char := b64Alphabet.getD n 'A'

/-- Position of a character in the base64 alphabet, `none` when absent. -/
def b64Index (c : Char) : Option Nat := b64Alphabet.findIdx? (· == c)

/-- WHATWG `btoa` on a binary string (here: the byte values themselves,
since `base64.encode` builds the binary string with
`String.fromCharCode(...bytes)`): big-endian 6-bit groups, `=`-padded to a
multiple of four characters. -/
def btoa : List Nat → List Char
  | [] => []
  | [b0] => [b64Char (b0 / 4), b64Char (b0 % 4 * 16), '=', '=']
  | [b0, b1] => [b64Char (b0 / 4), b64Char (b0 % 4 * 16 + b1 / 16), b64Char (b1 % 16 * 4), '=']
  | b0 :: b1 :: b2 :: rest =>
      b64Char (b0 / 4) :: b64Char (b0 % 4 * 16 + b1 / 16) ::
      b64Char (b1 % 16 * 4 + b2 / 64) :: b64Char (b2 % 64) :: btoa rest

/-- ASCII whitespace removed by the forgiving-base64 decoder. -/
def isAsciiWhitespace (c : Char) : Bool :=
  c.toNat = 9 || c.toNat = 10 || c.toNat = 12 || c.toNat = 13 || c.toNat = 32

/-- Forgiving-base64 step: when the length is a multiple of four, up to two
trailing `=` are removed. -/
def stripPad (cs : List Char) : List Char :=
  match cs.reverse with
  | '=' :: '=' :: r => r.reverse
  | '=' :: r => r.reverse
  | _ => cs

/-- Bytes of a list of 6-bit groups; a trailing group of two or three
values yields one or two bytes, the leftover bits are discarded. -/
def decodeVals : List Nat → List Nat
  | v0 :: v1 :: v2 :: v3 :: rest =>
      (v0 * 4 + v1 / 16) :: (v1 % 16 * 16 + v2 / 4) :: (v2 % 4 * 64 + v3) :: decodeVals rest
  | [v0, v1] => [v0 * 4 + v1 / 16]
  | [v0, v1, v2] => [v0 * 4 + v1 / 16, v1 % 16 * 16 + v2 / 4]
  | _ => []

/-- Padding removal step of forgiving-base64: only applies when the length
is a multiple of four. -/
def atobClean (t : List Char) : List Char :=
  if t.length % 4 = 0 then stripPad t else t

/-- Core of forgiving-base64 after cleanup: fail on a length remainder of
one or on a character outside the alphabet, then decode the 6-bit groups. -/
def atobMain (t : List Char) : Option (List Nat) :=
  if t.length % 4 = 1 then none
  else if t.any (fun c => (b64Index c).isNone) then none
  else some (decodeVals (t.map (fun c => (b64Index c).getD 0)))

/-- WHATWG `atob` (forgiving-base64 decode): drop ASCII whitespace, strip
padding when the length is a multiple of four, then decode. -/
def atob (s : List Char) : Option (List Nat) :=
  atobMain (atobClean (s.filter (fun c => !isAsciiWhitespace c)))

/-- The `unsafeToSafe` table applied by `makeUrlSafe`'s single
`replace(/[=+/]/gm, ...)` pass: `=` is dropped, `+` and `/` are remapped,
everything else is kept. -/
def urlSafeChar (c : Char) : Option Char :=
  if c = '=' then none else if c = '+' then some '-' else if c = '/' then some '_' else some c

/-- `makeUrlSafe` from src/transcoders.ts. -/
def makeUrlSafe (s : List Char) : List Char := s.filterMap urlSafeChar

/-- The `safeToUnsafe` table applied by `makeUrlUnsafe`. -/
def urlUnsafeChar (c : Char) : Char :=
  if c = '-' then '+' else if c = '_' then '/' else c

/-- `makeUrlUnsafe` from src/transcoders.ts: remap `-` and `_`, then append
`"=".repeat((4 - (base64.length % 4)) % 4)` (the character replacement
preserves the length, so computing the padding from the original string is
the same as from the remapped one). -/
def makeUrlUnsafe (s : List Char) : List Char :=
  s.map urlUnsafeChar ++ List.replicate ((4 - s.length % 4) % 4) '='

/-- `base64.encode(buf, urlSafe)`. -/
def b64Encode (bs : List Nat) (urlSafe : Bool) : List Char :=
  if urlSafe then makeUrlSafe (btoa bs) else btoa bs

/-- `base64.decode(text, urlSafe)`; `none` models the `InvalidCharacterError`
thrown by `atob`. -/
def b64Decode (s : List Char) (urlSafe : Bool) : Option (List Nat) :=
  atob (if urlSafe then makeUrlUnsafe s else s)

/-! ### Buffer utilities (src/buffer.ts) -/

/-- A JS typed array: bytes per element together with the element values
(each element's byte image is its little-endian representation). -/
structure JsTypedArray where
  width : Nat
  elems : List Nat
deriving DecidableEq

/-- Little-endian byte image of one element value. -/
def bytesLE : Nat → Nat → List Nat
  | 0, _ => []
  | w + 1, v => v % 256 :: bytesLE w (v / 256)

/-- The contents of a typed array's underlying `ArrayBuffer`. -/
def arrayBytes (a : JsTypedArray) : List Nat :=
  (a.elems.map (bytesLE a.width)).flatten

/-- Value of a little-endian byte list. -/
def decodeLE : List Nat → Nat
  | [] => 0
  | b :: rest => b + 256 * decodeLE rest

/-- Reinterpret a byte list as elements of the given width (the
`new Constructor(merged.buffer)` step). -/
def chunkDecode (w : Nat) (bs : List Nat) : List Nat :=
  if h : w = 0 ∨ bs = [] then []
  else decodeLE (bs.take w) :: chunkDecode w (bs.drop w)
termination_by bs.length
decreasing_by
  have hw : w ≠ 0 := fun hh => h (Or.inl hh)
  have hb : bs ≠ [] := fun hh => h (Or.inr hh)
  have := List.length_pos.mpr hb
  simp only [List.length_drop]
  omega

/-- `buffer.concat`: no arguments yields `undefined` (`none`); otherwise the
byte images are merged in order and reinterpreted with the first array's
constructor. -/
def concat (bufs : List JsTypedArray) : Option JsTypedArray :=
  match bufs with
  | [] => none
  | b0 :: _ => some ⟨b0.width, chunkDecode b0.width ((bufs.map arrayBytes).flatten)⟩

/-- `DataView.setUint16(0, v, false)`: store `v mod 2^16` big-endian into
the first two bytes. -/
def setUint16BE (v : Nat) : List Nat → List Nat
  | b0 :: b1 :: rest => v / 256 % 256 :: v % 256 :: rest
  | l => l

/-- `buffer.pad(buf, len)`: a zero-filled array of `2 + len + buf.length`
bytes, the payload written at offset `2 + len`, then the pad length stored
big-endian in the first two bytes. -/
def pad (buf : List Nat) (len : Nat) : List Nat :=
  setUint16BE len (List.replicate (2 + len) 0 ++ buf)

/-! ### Blob adapter (`blob.fromDataUrl` / `blob.fromBase64`) -/

/-- Failures observable from `fromDataUrl`: an explicitly thrown `Error`
with its message, and the `InvalidCharacterError` of `atob`. -/
inductive JsError where
  | thrown (msg : List Char)
  | invalidCharacter
deriving DecidableEq

/-- The result blob: its MIME type and content bytes. -/
structure JsBlob where
  type : List Char
  bytes : List Nat
deriving DecidableEq

deriving instance DecidableEq for Except

/-- JS `s.split(sep, 2)` destructured to two names: the first segment, and
(when a separator occurs) the second segment up to the next separator. -/
def splitLimit2 (sep : Char) (s : List Char) : List Char × Option (List Char) :=
  let first := s.takeWhile (fun c => c ≠ sep)
  match s.drop first.length with
  | [] => (first, none)
  | _ :: tail => (first, some (tail.takeWhile (fun c => c ≠ sep)))

/-- Template-literal rendering of a possibly-`undefined` string. -/
def showOptStr (o : Option (List Char)) : List Char := o.getD "undefined".data

/-- `blob.fromBase64(base64, type)`: `base64.decode` (standard mode) wrapped
into a blob of the given type. -/
def blobFromBase64 (s : List Char) (ty : List Char) : Except JsError JsBlob :=
  match b64Decode s false with
  | none => .error .invalidCharacter
  | some bs => .ok ⟨ty, bs⟩

/-- Body of `fromDataUrl` after the scheme check, on the split
`[prefix, payload]` pair (`prefix` is further split as `[type, encoding]`):
reject a non-`base64` encoding token, then decode the payload. A missing
payload segment (`undefined`) reaches `atob`, whose WebIDL argument
coercion stringifies it to `"undefined"` — hence `showOptStr` on the
payload, exactly as in the template literal of the error message. -/
def fromDataUrlBody (p : List Char × Option (List Char))
    (forcedType : Option (List Char)) : Except JsError JsBlob :=
  if (splitLimit2 ';' p.1).2 ≠ some "base64".data then
    .error (.thrown ("Unsupported encoding: ".data ++ showOptStr (splitLimit2 ';' p.1).2))
  else
    blobFromBase64 (showOptStr p.2) (forcedType.getD (splitLimit2 ';' p.1).1)

/-- `blob.fromDataUrl(dataUrl, forcedType)` from the blob adapter. -/
def fromDataUrl (dataUrl : List Char) (forcedType : Option (List Char)) :
    Except JsError JsBlob :=
  if dataUrl.take 5 ≠ "data:".data then .error (.thrown "Invalid data URL".data)
  else fromDataUrlBody (splitLimit2 ',' (dataUrl.drop 5)) forcedType

/-! ### Facts about the hex transcoder -/

/-- Unfolding of the decode loop on a pair. -/
lemma decodePairs_cons (c0 c1 : Char) (rest : List Char) :
    decodePairs (c0 :: c1 :: rest) = toUint8 (parseIntHex [c0, c1]) :: decodePairs rest := rfl

/-- `hexDigitVal` succeeds exactly on the three ASCII digit ranges. -/
lemma hexDigitVal_isSome_iff (c : Char) :
    (hexDigitVal c).isSome = true ↔
      (48 ≤ c.toNat ∧ c.toNat ≤ 57) ∨ (97 ≤ c.toNat ∧ c.toNat ≤ 102) ∨
      (65 ≤ c.toNat ∧ c.toNat ≤ 70) := by
  unfold hexDigitVal
  split
  · simp only [Option.isSome_some, true_iff]
    tauto
  · split
    · simp only [Option.isSome_some, true_iff]
      tauto
    · split
      · simp only [Option.isSome_some, true_iff]
        tauto
      · simp only [Option.isSome_none, Bool.false_eq_true, false_iff]
        tauto

/-- A hex digit is bounded by 16. -/
lemma hexDigitVal_lt (c : Char) (v : Nat) (h : hexDigitVal c = some v) : v < 16 := by
  unfold hexDigitVal at h
  split at h <;>
    [skip; split at h] <;> [skip; skip; split at h] <;>
    simp_all <;> omega

/-- A hex digit character is not whitespace, not a sign, and not `x`/`X`. -/
lemma hexDigit_char_facts (c : Char) (h : (hexDigitVal c).isSome = true) :
    isJsWhitespace c = false ∧ c ≠ '-' ∧ c ≠ '+' ∧ c ≠ 'x' ∧ c ≠ 'X' := by
  rw [hexDigitVal_isSome_iff] at h
  refine ⟨?_, ?_, ?_, ?_, ?_⟩
  · simp only [isJsWhitespace, Bool.or_eq_false_iff, decide_eq_false_iff_not]
    omega
  · rintro rfl; revert h; decide
  · rintro rfl; revert h; decide
  · rintro rfl; revert h; decide
  · rintro rfl; revert h; decide

/-- `parseInt` on a two-hex-digit string reads the place-value number. -/
lemma parseIntHex_pair (c0 c1 : Char) (v0 v1 : Nat)
    (h0 : hexDigitVal c0 = some v0) (h1 : hexDigitVal c1 = some v1) :
    parseIntHex [c0, c1] = some ((v0 * 16 + v1 : Nat) : Int) := by
  obtain ⟨hw0, hm0, hp0, _, _⟩ := hexDigit_char_facts c0 (by simp [h0])
  obtain ⟨_, _, _, hx1, hX1⟩ := hexDigit_char_facts c1 (by simp [h1])
  have hdrop : List.dropWhile isJsWhitespace [c0, c1] = [c0, c1] := by
    rw [List.dropWhile_cons_of_neg (by rw [hw0]; exact Bool.false_ne_true)]
  have hsign : signSplit [c0, c1] = (false, [c0, c1]) := by
    show (if c0 = '-' then ((true : Bool), [c1])
      else if c0 = '+' then ((false : Bool), [c1]) else ((false : Bool), [c0, c1])) = _
    rw [if_neg hm0, if_neg hp0]
  have hstrip : stripHexPfx [c0, c1] = [c0, c1] := by
    show (if c0 = '0' ∧ (c1 = 'x' ∨ c1 = 'X') then [] else [c0, c1]) = _
    exact if_neg (fun hc => hc.2.elim hx1 hX1)
  unfold parseIntHex
  rw [hdrop, hsign]
  unfold parseIntHexSigned
  simp only [hstrip]
  unfold parseIntHexDigits
  have ht : List.takeWhile (fun c => (hexDigitVal c).isSome) [c0, c1] = [c0, c1] := by
    simp [List.takeWhile, h0, h1]
  simp [ht, h0, h1]

/-- The decode loop stores `v0 * 16 + v1` for a valid pair. -/
lemma toUint8_parseIntHex_pair (c0 c1 : Char) (v0 v1 : Nat)
    (h0 : hexDigitVal c0 = some v0) (h1 : hexDigitVal c1 = some v1) :
    toUint8 (parseIntHex [c0, c1]) = v0 * 16 + v1 := by
  have hv0 := hexDigitVal_lt c0 v0 h0
  have hv1 := hexDigitVal_lt c1 v1 h1
  rw [parseIntHex_pair c0 c1 v0 v1 h0 h1]
  show (((v0 * 16 + v1 : Nat) : Int) % 256).toNat = v0 * 16 + v1
  omega

/-- The encoder's digits are recognised by `hexDigitVal`. -/
lemma hexDigitVal_hexDigit : ∀ n : Fin 16, hexDigitVal (hexDigit n.val) = some n.val := by
  decide

/-- Decoding the pairs produced by `hex.encode` restores the bytes. -/
lemma decodePairs_hexEncode : ∀ bs : List Nat, (∀ b ∈ bs, b < 256) →
    decodePairs (hexEncode bs) = bs
  | [], _ => rfl
  | b :: rest, h => by
    have hb : b < 256 := h b (List.mem_cons_self b rest)
    have h1 : hexDigitVal (hexDigit (b / 16)) = some (b / 16) :=
      hexDigitVal_hexDigit ⟨b / 16, by omega⟩
    have h2 : hexDigitVal (hexDigit (b % 16)) = some (b % 16) :=
      hexDigitVal_hexDigit ⟨b % 16, by omega⟩
    show decodePairs (hexDigit (b / 16) :: hexDigit (b % 16) :: hexEncode rest) = b :: rest
    rw [decodePairs_cons, toUint8_parseIntHex_pair _ _ _ _ h1 h2,
      decodePairs_hexEncode rest (fun x hx => h x (List.mem_cons_of_mem b hx))]
    congr 1
    omega

/-- Two hex characters per input byte. -/
lemma hexEncode_length (bs : List Nat) : (hexEncode bs).length = 2 * bs.length := by
  induction bs with
  | nil => rfl
  | cons b rest ih =>
    show (hexDigit (b / 16) :: hexDigit (b % 16) :: hexEncode rest).length = _
    simp [ih]
    omega

/-- C2: for every byte sequence `b`, `hex.decode(hex.encode(b))` returns a
byte sequence equal to `b`. -/
theorem hex_decode_encode_roundtrip (bs : List Nat) (h : ∀ b ∈ bs, b < 256) :
    hexDecode (hexEncode bs) = bs := by
  unfold hexDecode
  rw [if_neg (by rw [hexEncode_length]; omega)]
  exact decodePairs_hexEncode bs h

/-- Witness for C2 at the concrete byte sequence `[1, 2, 3, 171, 255]`. -/
theorem hex_decode_encode_roundtrip_witness :
    hexDecode (hexEncode [1, 2, 3, 171, 255]) = [1, 2, 3, 171, 255] :=
  hex_decode_encode_roundtrip [1, 2, 3, 171, 255] (by decide)

/-- Length of the decode loop's output: one byte per pair. -/
lemma decodePairs_length : ∀ s : List Char, (decodePairs s).length = s.length / 2
  | [] => by simp [decodePairs]
  | [_] => by simp [decodePairs]
  | _ :: _ :: rest => by
    rw [decodePairs_cons]
    simp only [List.length_cons, decodePairs_length rest]
    omega

/-- C4 counterexample: the input "zz" contains no valid hex pair, yet
`hex.decode` returns the byte 0 instead of failing with `InvalidEncoding`
(`parseInt` yields NaN, which the `Uint8Array` store coerces to 0). -/
theorem hex_decode_invalid_pair_coerced : hexDecode "zz".data = [0] := by decide

/-- C4 (amended): `hex.decode` never fails — it always returns one byte per
two-character group (with the odd-length group absorbed); a group that
`parseInt` cannot parse at all is silently stored as 0, and a group with a
parseable prefix keeps the prefix's value (e.g. "1z" decodes to [1]). -/
theorem hex_decode_total_silent_coercion :
    (∀ s : List Char, (hexDecode s).length = (s.length + 1) / 2) ∧
    (∀ c0 c1 : Char, parseIntHex [c0, c1] = none → hexDecode [c0, c1] = [0]) ∧
    hexDecode "1z".data = [1] := by
  refine ⟨?_, ?_, by decide⟩
  · intro s
    unfold hexDecode
    by_cases h : s.length % 2 = 1
    · rw [if_pos h, decodePairs_length]
      simp only [List.length_cons]
    · rw [if_neg h, decodePairs_length]
      omega
  · intro c0 c1 h
    unfold hexDecode
    rw [if_neg (by simp), decodePairs_cons, h]
    rfl

/-- Witness for the amended C4 theorem at the concrete group "qq". -/
theorem hex_decode_total_silent_coercion_witness : hexDecode ['q', 'q'] = [0] :=
  hex_decode_total_silent_coercion.2.1 'q' 'q' (by decide)

/-- A hex digit character in a chosen case (`upper` selects `A`-`F`). -/
def hexDigitChar (v : Nat) (upper : Bool) : Char :=
  if upper then "0123456789ABCDEF".data.getD v '0' else "0123456789abcdef".data.getD v '0'

/-- Characters interchangeable for the decoder: same digit value, both
valid hex digits (e.g. the same digit in different case). -/
def digitSim (c d : Char) : Prop :=
  hexDigitVal c = hexDigitVal d ∧ (hexDigitVal c).isSome = true

/-- The decode loop only looks at digit values, so `digitSim`-related
inputs decode identically. -/
lemma decodePairs_congr : ∀ (s t : List Char), List.Forall₂ digitSim s t →
    decodePairs s = decodePairs t
  | [], [], _ => rfl
  | [], _ :: _, h => nomatch h
  | _ :: _, [], h => nomatch h
  | [_], [_], _ => rfl
  | [_], _ :: _ :: _, h => by
    rcases h with _ | ⟨_, h2⟩
    exact nomatch h2
  | _ :: _ :: _, [_], h => by
    rcases h with _ | ⟨_, h2⟩
    exact nomatch h2
  | c0 :: c1 :: s, d0 :: d1 :: t, h => by
    rcases h with _ | ⟨h0, hrest⟩
    rcases hrest with _ | ⟨h1, hrest⟩
    obtain ⟨he0, hs0⟩ := h0
    obtain ⟨he1, hs1⟩ := h1
    obtain ⟨v0, hv0⟩ := Option.isSome_iff_exists.mp hs0
    obtain ⟨v1, hv1⟩ := Option.isSome_iff_exists.mp hs1
    have hd0 : hexDigitVal d0 = some v0 := by rw [← he0]; exact hv0
    have hd1 : hexDigitVal d1 = some v1 := by rw [← he1]; exact hv1
    rw [decodePairs_cons, decodePairs_cons,
      toUint8_parseIntHex_pair c0 c1 v0 v1 hv0 hv1,
      toUint8_parseIntHex_pair d0 d1 v0 v1 hd0 hd1,
      decodePairs_congr s t hrest]

/-- `hex.decode` on `digitSim`-related inputs. -/
lemma hexDecode_congr (s t : List Char) (h : List.Forall₂ digitSim s t) :
    hexDecode s = hexDecode t := by
  have hlen : s.length = t.length := h.length_eq
  unfold hexDecode
  rw [hlen]
  by_cases hodd : t.length % 2 = 1
  · rw [if_pos hodd, if_pos hodd]
    exact decodePairs_congr _ _ (List.Forall₂.cons ⟨rfl, by decide⟩ h)
  · rw [if_neg hodd, if_neg hodd]
    exact decodePairs_congr _ _ h

/-- The digit table matches `hexDigitVal` in both cases. -/
lemma hexDigitVal_hexDigitChar :
    ∀ (v : Fin 16) (u : Bool), hexDigitVal (hexDigitChar v.val u) = some v.val := by
  decide

/-- C7: an odd-length input decodes exactly as the same input with a single
'0' prepended (the dangling first character becomes the low nibble of the
first byte); the case of the hex digits does not affect the decoded bytes;
and "f" decodes to the single byte 15. -/
theorem hex_decode_odd_and_case :
    (∀ s : List Char, s.length % 2 = 1 → hexDecode s = hexDecode ('0' :: s)) ∧
    (∀ ds : List (Fin 16 × Bool),
      hexDecode (ds.map fun p => hexDigitChar p.1.val p.2) =
        hexDecode (ds.map fun p => hexDigitChar p.1.val false)) ∧
    hexDecode "f".data = [15] := by
  refine ⟨?_, ?_, by decide⟩
  · intro s h
    unfold hexDecode
    rw [if_pos h, if_neg (by simp only [List.length_cons]; omega)]
  · intro ds
    apply hexDecode_congr
    induction ds with
    | nil => exact List.Forall₂.nil
    | cons p rest ih =>
      exact List.Forall₂.cons
        ⟨by rw [hexDigitVal_hexDigitChar p.1 p.2, hexDigitVal_hexDigitChar p.1 false],
         by rw [hexDigitVal_hexDigitChar p.1 p.2]; rfl⟩ ih

/-- Witness for C7 at the odd-length input "abc" and digit list [15]. -/
theorem hex_decode_odd_and_case_witness :
    hexDecode "abc".data = hexDecode ('0' :: "abc".data) ∧ hexDecode "f".data = [15] :=
  ⟨hex_decode_odd_and_case.1 "abc".data (by decide), hex_decode_odd_and_case.2.2⟩

/-! ### Facts about the base64 transcoder -/

/-- The 6-bit groups underlying `btoa`'s output characters. -/
def b64Vals : List Nat → List Nat
  | [] => []
  | [b0] => [b0 / 4, b0 % 4 * 16]
  | [b0, b1] => [b0 / 4, b0 % 4 * 16 + b1 / 16, b1 % 16 * 4]
  | b0 :: b1 :: b2 :: rest =>
      b0 / 4 :: (b0 % 4 * 16 + b1 / 16) :: (b1 % 16 * 4 + b2 / 64) :: b2 % 64 :: b64Vals rest

/-- Number of `=` padding characters `btoa` appends. -/
def b64PadLen (bs : List Nat) : Nat := (3 - bs.length % 3) % 3

/-- The character substitution of `makeUrlSafe` on characters it keeps. -/
def safeRepl (c : Char) : Char :=
  if c = '+' then '-' else if c = '/' then '_' else c

/-- Alphabet facts used throughout, checked by evaluation over all 64
positions. -/
lemma b64_char_facts : ∀ v : Fin 64,
    b64Index (b64Char v.val) = some v.val ∧
    b64Char v.val ≠ '=' ∧
    isAsciiWhitespace (b64Char v.val) = false ∧
    urlUnsafeChar (safeRepl (b64Char v.val)) = b64Char v.val ∧
    urlUnsafeChar (b64Char v.val) = b64Char v.val := by
  decide

/-- `btoa` in terms of its 6-bit groups and padding. -/
lemma btoa_eq : ∀ bs : List Nat,
    btoa bs = (b64Vals bs).map b64Char ++ List.replicate (b64PadLen bs) '='
  | [] => by simp [btoa, b64Vals, b64PadLen]
  | [b0] => by simp [btoa, b64Vals, b64PadLen]
  | [b0, b1] => by simp [btoa, b64Vals, b64PadLen]
  | b0 :: b1 :: b2 :: rest => by
    have hpad : b64PadLen (b0 :: b1 :: b2 :: rest) = b64PadLen rest := by
      unfold b64PadLen
      simp only [List.length_cons]
      omega
    show b64Char (b0 / 4) :: b64Char (b0 % 4 * 16 + b1 / 16) ::
        b64Char (b1 % 16 * 4 + b2 / 64) :: b64Char (b2 % 64) :: btoa rest = _
    rw [btoa_eq rest, hpad]
    rfl

/-- All 6-bit groups are below 64 when the bytes are below 256. -/
lemma b64Vals_lt : ∀ bs : List Nat, (∀ b ∈ bs, b < 256) → ∀ v ∈ b64Vals bs, v < 64
  | [], _, v, hv => by simp [b64Vals] at hv
  | [b0], h, v, hv => by
    have hb0 : b0 < 256 := h b0 (by simp)
    simp [b64Vals] at hv
    rcases hv with rfl | rfl <;> omega
  | [b0, b1], h, v, hv => by
    have hb0 : b0 < 256 := h b0 (by simp)
    have hb1 : b1 < 256 := h b1 (by simp)
    simp [b64Vals] at hv
    rcases hv with rfl | rfl | rfl <;> omega
  | b0 :: b1 :: b2 :: rest, h, v, hv => by
    have hb0 : b0 < 256 := h b0 (by simp)
    have hb1 : b1 < 256 := h b1 (by simp)
    have hb2 : b2 < 256 := h b2 (by simp)
    have hrest : ∀ b ∈ rest, b < 256 := fun b hb => h b (by simp [hb])
    rcases hv with _ | ⟨_, hv⟩
    · omega
    rcases hv with _ | ⟨_, hv⟩
    · omega
    rcases hv with _ | ⟨_, hv⟩
    · omega
    rcases hv with _ | ⟨_, hv⟩
    · omega
    exact b64Vals_lt rest hrest v hv

/-- Groups plus padding always fill whole four-character blocks. -/
lemma b64Vals_len_pad : ∀ bs : List Nat, ((b64Vals bs).length + b64PadLen bs) % 4 = 0
  | [] => by simp [b64Vals, b64PadLen]
  | [b0] => by simp [b64Vals, b64PadLen]
  | [b0, b1] => by simp [b64Vals, b64PadLen]
  | b0 :: b1 :: b2 :: rest => by
    have hpad : b64PadLen (b0 :: b1 :: b2 :: rest) = b64PadLen rest := by
      unfold b64PadLen
      simp only [List.length_cons]
      omega
    have := b64Vals_len_pad rest
    show ((b0 / 4 :: _ :: _ :: _ :: b64Vals rest).length + _) % 4 = 0
    rw [hpad]
    simp only [List.length_cons]
    omega

/-- The padding count is at most two. -/
lemma b64PadLen_le (bs : List Nat) : b64PadLen bs ≤ 2 := by
  unfold b64PadLen
  omega

/-- Unfolding of the group decoder on a full block. -/
lemma decodeVals_cons4 (v0 v1 v2 v3 : Nat) (vs : List Nat) :
    decodeVals (v0 :: v1 :: v2 :: v3 :: vs) =
      (v0 * 4 + v1 / 16) :: (v1 % 16 * 16 + v2 / 4) :: (v2 % 4 * 64 + v3) :: decodeVals vs := rfl

/-- Decoding the encoder's 6-bit groups restores the bytes. -/
lemma decodeVals_b64Vals : ∀ bs : List Nat, (∀ b ∈ bs, b < 256) →
    decodeVals (b64Vals bs) = bs
  | [], _ => rfl
  | [b0], h => by
    have hb0 : b0 < 256 := h b0 (by simp)
    show [b0 / 4 * 4 + b0 % 4 * 16 / 16] = [b0]
    have : b0 / 4 * 4 + b0 % 4 * 16 / 16 = b0 := by omega
    rw [this]
  | [b0, b1], h => by
    have hb0 : b0 < 256 := h b0 (by simp)
    have hb1 : b1 < 256 := h b1 (by simp)
    show [b0 / 4 * 4 + (b0 % 4 * 16 + b1 / 16) / 16,
        (b0 % 4 * 16 + b1 / 16) % 16 * 16 + b1 % 16 * 4 / 4] = [b0, b1]
    have h0 : b0 / 4 * 4 + (b0 % 4 * 16 + b1 / 16) / 16 = b0 := by omega
    have h1 : (b0 % 4 * 16 + b1 / 16) % 16 * 16 + b1 % 16 * 4 / 4 = b1 := by omega
    rw [h0, h1]
  | b0 :: b1 :: b2 :: rest, h => by
    have hb0 : b0 < 256 := h b0 (by simp)
    have hb1 : b1 < 256 := h b1 (by simp)
    have hb2 : b2 < 256 := h b2 (by simp)
    have hrest : ∀ b ∈ rest, b < 256 := fun b hb => h b (by simp [hb])
    show decodeVals (b0 / 4 :: (b0 % 4 * 16 + b1 / 16) ::
        (b1 % 16 * 4 + b2 / 64) :: b2 % 64 :: b64Vals rest) = b0 :: b1 :: b2 :: rest
    rw [decodeVals_cons4, decodeVals_b64Vals rest hrest]
    have h0 : b0 / 4 * 4 + (b0 % 4 * 16 + b1 / 16) / 16 = b0 := by omega
    have h1 : (b0 % 4 * 16 + b1 / 16) % 16 * 16 + (b1 % 16 * 4 + b2 / 64) / 4 = b1 := by omega
    have h2 : (b1 % 16 * 4 + b2 / 64) % 4 * 64 + b2 % 64 = b2 := by omega
    rw [h0, h1, h2]

/-- Removing trailing padding from a block of non-`=` characters followed
by at most two `=` restores the block. -/
lemma stripPad_append (core : List Char) (hc : ∀ c ∈ core, c ≠ '=') :
    ∀ p, p ≤ 2 → stripPad (core ++ List.replicate p '=') = core := by
  have hrev : ∀ c ∈ core.reverse, c ≠ '=' := fun c hcm => hc c (List.mem_reverse.mp hcm)
  intro p hp
  interval_cases p
  · rw [List.replicate_zero, List.append_nil]
    unfold stripPad
    split
    · next r heq =>
      exact absurd (hrev '=' (by rw [heq]; exact List.mem_cons_self _ _)) (fun hh => hh rfl)
    · next r heq =>
      exact absurd (hrev '=' (by rw [heq]; exact List.mem_cons_self _ _)) (fun hh => hh rfl)
    · rfl
  · have hr : (core ++ List.replicate 1 '=').reverse = '=' :: core.reverse := by
      simp
    unfold stripPad
    rw [hr]
    split
    · next r heq =>
      rw [List.cons.injEq] at heq
      exact absurd (hrev '=' (by rw [heq.2]; exact List.mem_cons_self _ _)) (fun hh => hh rfl)
    · next r heq =>
      rw [List.cons.injEq] at heq
      rw [← heq.2, List.reverse_reverse]
    · next h1 h2 =>
      exact absurd rfl (h2 core.reverse)
  · have hr : (core ++ List.replicate 2 '=').reverse = '=' :: '=' :: core.reverse := by
      simp [List.replicate]
    unfold stripPad
    rw [hr]
    split
    · next r heq =>
      rw [List.cons.injEq, List.cons.injEq] at heq
      rw [← heq.2.2, List.reverse_reverse]
    · next hno heq =>
      rw [List.cons.injEq] at heq
      exact (hno core.reverse heq.2.symm).elim
    · next h1 h2 =>
      exact absurd rfl (h1 core.reverse)

/-- No character of `btoa`'s output is ASCII whitespace. -/
lemma filter_btoa (bs : List Nat) (h : ∀ b ∈ bs, b < 256) :
    (btoa bs).filter (fun c => !isAsciiWhitespace c) = btoa bs := by
  rw [List.filter_eq_self]
  intro c hcm
  rw [btoa_eq] at hcm
  rcases List.mem_append.mp hcm with hcm | hcm
  · obtain ⟨v, hv, rfl⟩ := List.mem_map.mp hcm
    have hlt := b64Vals_lt bs h v hv
    have := (b64_char_facts ⟨v, hlt⟩).2.2.1
    simp only [this, Bool.not_false]
  · rw [List.eq_of_mem_replicate hcm]
    decide

/-- The whole output of `btoa` fills four-character blocks. -/
lemma btoa_length_mod4 (bs : List Nat) : (btoa bs).length % 4 = 0 := by
  rw [btoa_eq]
  simp only [List.length_append, List.length_map, List.length_replicate]
  exact b64Vals_len_pad bs

/-- The decode core maps the encoder's characters back to the bytes. -/
lemma atobMain_core (bs : List Nat) (h : ∀ b ∈ bs, b < 256) :
    atobMain ((b64Vals bs).map b64Char) = some bs := by
  unfold atobMain
  rw [if_neg]
  · rw [if_neg]
    · rw [List.map_map]
      have hmap : (b64Vals bs).map ((fun c => (b64Index c).getD 0) ∘ b64Char) =
          (b64Vals bs).map id := by
        apply List.map_congr_left
        intro v hv
        have hlt := b64Vals_lt bs h v hv
        have := (b64_char_facts ⟨v, hlt⟩).1
        simp [Function.comp, this]
      rw [hmap, List.map_id, decodeVals_b64Vals bs h]
    · simp only [List.any_eq_true, not_exists, not_and]
      rintro c hcm
      obtain ⟨v, hv, rfl⟩ := List.mem_map.mp hcm
      have hlt := b64Vals_lt bs h v hv
      have := (b64_char_facts ⟨v, hlt⟩).1
      simp [this]
  · simp only [List.length_map]
    have h1 := b64Vals_len_pad bs
    have h2 := b64PadLen_le bs
    omega

/-- Round trip of the platform pair: `atob (btoa bytes) = bytes`. -/
lemma atob_btoa (bs : List Nat) (h : ∀ b ∈ bs, b < 256) :
    atob (btoa bs) = some bs := by
  unfold atob atobClean
  rw [filter_btoa bs h, if_pos (btoa_length_mod4 bs), btoa_eq]
  rw [stripPad_append _ ?_ _ (b64PadLen_le bs)]
  · exact atobMain_core bs h
  · intro c hcm
    obtain ⟨v, hv, rfl⟩ := List.mem_map.mp hcm
    have hlt := b64Vals_lt bs h v hv
    exact (b64_char_facts ⟨v, hlt⟩).2.1

/-- On `=`-free text the substitution keeps every character. -/
lemma filterMap_urlSafeChar (l : List Char) (h : ∀ c ∈ l, c ≠ '=') :
    l.filterMap urlSafeChar = l.map safeRepl := by
  induction l with
  | nil => rfl
  | cons c rest ih =>
    have hc : c ≠ '=' := h c (List.mem_cons_self _ _)
    have hrest := ih (fun d hd => h d (List.mem_cons_of_mem _ hd))
    have hsome : urlSafeChar c = some (safeRepl c) := by
      unfold urlSafeChar safeRepl
      rw [if_neg hc]
      by_cases h1 : c = '+'
      · rw [if_pos h1, if_pos h1]
      · rw [if_neg h1, if_neg h1]
        by_cases h2 : c = '/'
        · rw [if_pos h2, if_pos h2]
        · rw [if_neg h2, if_neg h2]
    simp [List.filterMap_cons, hsome, hrest]

/-- The substitution deletes the padding run. -/
lemma filterMap_urlSafeChar_pad (p : Nat) :
    (List.replicate p '=').filterMap urlSafeChar = [] := by
  induction p with
  | zero => rfl
  | succ n ih =>
    rw [List.replicate_succ, List.filterMap_cons]
    simp [urlSafeChar, ih]

/-- Characters of the encoder's unpadded block are not `=`. -/
lemma core_ne_eq (bs : List Nat) (h : ∀ b ∈ bs, b < 256) :
    ∀ c ∈ (b64Vals bs).map b64Char, c ≠ '=' := by
  intro c hcm
  obtain ⟨v, hv, rfl⟩ := List.mem_map.mp hcm
  exact (b64_char_facts ⟨v, b64Vals_lt bs h v hv⟩).2.1

/-- `makeUrlSafe` on encoder output: substitution on the block, padding
dropped. -/
lemma makeUrlSafe_btoa (bs : List Nat) (h : ∀ b ∈ bs, b < 256) :
    makeUrlSafe (btoa bs) = (b64Vals bs).map (fun v => safeRepl (b64Char v)) := by
  unfold makeUrlSafe
  rw [btoa_eq, List.filterMap_append, filterMap_urlSafeChar _ (core_ne_eq bs h),
    filterMap_urlSafeChar_pad, List.append_nil, List.map_map]
  rfl

/-- `makeUrlUnsafe` undoes `makeUrlSafe` on encoder output: the character
remap is inverted and exactly the stripped padding is restored. -/
lemma makeUrlUnsafe_makeUrlSafe_btoa (bs : List Nat) (h : ∀ b ∈ bs, b < 256) :
    makeUrlUnsafe (makeUrlSafe (btoa bs)) = btoa bs := by
  rw [makeUrlSafe_btoa bs h]
  unfold makeUrlUnsafe
  rw [List.map_map, btoa_eq]
  congr 1
  · apply List.map_congr_left
    intro v hv
    exact (b64_char_facts ⟨v, b64Vals_lt bs h v hv⟩).2.2.2.1
  · congr 1
    simp only [List.length_map]
    have h1 := b64Vals_len_pad bs
    have h2 := b64PadLen_le bs
    omega

/-- C1: for every byte sequence `b` and boolean `s`,
`base64.decode(base64.encode(b, s), s)` returns `b` — standard mode pads
with `=`, URL-safe mode strips the padding on encode and restores it on
decode. -/
theorem base64_decode_encode_roundtrip (bs : List Nat) (s : Bool) (h : ∀ b ∈ bs, b < 256) :
    b64Decode (b64Encode bs s) s = some bs := by
  cases s
  · exact atob_btoa bs h
  · show atob (makeUrlUnsafe (makeUrlSafe (btoa bs))) = some bs
    rw [makeUrlUnsafe_makeUrlSafe_btoa bs h]
    exact atob_btoa bs h

/-- Witness for C1 at `[0, 255, 16]` (standard) and `[0, 255, 16, 77]`
(URL-safe, exercising a stripped padding of 2). -/
theorem base64_decode_encode_roundtrip_witness :
    b64Decode (b64Encode [0, 255, 16] false) false = some [0, 255, 16] ∧
    b64Decode (b64Encode [0, 255, 16, 77] true) true = some [0, 255, 16, 77] :=
  ⟨base64_decode_encode_roundtrip [0, 255, 16] false (by decide),
   base64_decode_encode_roundtrip [0, 255, 16, 77] true (by decide)⟩

/-- `makeUrlUnsafe` is the identity on canonical standard base64: the remap
touches no standard character and zero padding is added. -/
lemma makeUrlUnsafe_btoa (bs : List Nat) (h : ∀ b ∈ bs, b < 256) :
    makeUrlUnsafe (btoa bs) = btoa bs := by
  unfold makeUrlUnsafe
  rw [btoa_length_mod4 bs]
  rw [show (4 - 0) % 4 = 0 from rfl, List.replicate_zero, List.append_nil]
  rw [btoa_eq, List.map_append, List.map_map, List.map_replicate]
  congr 1
  apply List.map_congr_left
  intro v hv
  exact (b64_char_facts ⟨v, b64Vals_lt bs h v hv⟩).2.2.2.2

/-- C10: the URL-safe decode path also accepts canonical standard base64 —
padding restoration adds nothing to a multiple-of-four string and the remap
leaves `+`, `/`, `=` unchanged. -/
theorem base64_urlsafe_decode_accepts_standard (bs : List Nat) (h : ∀ b ∈ bs, b < 256) :
    b64Decode (b64Encode bs false) true = some bs := by
  show atob (makeUrlUnsafe (btoa bs)) = some bs
  rw [makeUrlUnsafe_btoa bs h]
  exact atob_btoa bs h

/-- Witness for C10 at `[251, 239, 190]` (whose standard encoding contains
both `+` and `/`). -/
theorem base64_urlsafe_decode_accepts_standard_witness :
    b64Decode (b64Encode [251, 239, 190] false) true = some [251, 239, 190] :=
  base64_urlsafe_decode_accepts_standard [251, 239, 190] (by decide)

/-- The transformation described by the spec: `+`→`-`, `/`→`_`, `=`
removed. -/
def urlSafeSubst (s : List Char) : List Char :=
  (s.map (fun c => if c = '+' then '-' else if c = '/' then '_' else c)).filter
    (fun c => c != '=')

/-- The single-pass table substitution agrees with map-then-remove. -/
lemma makeUrlSafe_eq_urlSafeSubst (l : List Char) : makeUrlSafe l = urlSafeSubst l := by
  induction l with
  | nil => rfl
  | cons c rest ih =>
    unfold makeUrlSafe urlSafeSubst
    unfold makeUrlSafe urlSafeSubst at ih
    rw [List.filterMap_cons, List.map_cons, List.filter_cons]
    by_cases h1 : c = '='
    · subst h1
      simp [urlSafeChar, ih]
    · by_cases h2 : c = '+'
      · subst h2
        simp [urlSafeChar, ih]
      · by_cases h3 : c = '/'
        · subst h3
          simp [urlSafeChar, ih]
        · simp [urlSafeChar, h1, h2, h3, ih]

/-- C8: URL-safe encoding equals the standard encoding with `+`→`-`,
`/`→`_` and all `=` removed; in particular `[248, 255, 254]` encodes to
"+P/+" and, URL-safely, to "-P_-". -/
theorem base64_encode_urlsafe_substitution :
    (∀ bs : List Nat, b64Encode bs true = urlSafeSubst (b64Encode bs false)) ∧
    b64Encode [248, 255, 254] false = ['+', 'P', '/', '+'] ∧
    b64Encode [248, 255, 254] true = ['-', 'P', '_', '-'] := by
  refine ⟨?_, by decide, by decide⟩
  intro bs
  exact makeUrlSafe_eq_urlSafeSubst (btoa bs)

/-! ### Facts about buffer padding and concatenation -/

/-- Explicit layout of the padded frame. -/
lemma pad_repr (buf : List Nat) (n : Nat) :
    pad buf n = (n / 256 % 256 :: n % 256 :: List.replicate n 0) ++ buf := by
  unfold pad
  have hsplit : List.replicate (2 + n) (0 : Nat) = 0 :: 0 :: List.replicate n 0 := by
    rw [List.replicate_add]
    rfl
  rw [hsplit]
  rfl

/-- C3: for `n ≤ 65535`, `pad(b, n)` has length `2 + n + len(b)`, its first
two bytes read big-endian equal `n`, bytes `[2, 2+n)` are all zero, and the
bytes from offset `2 + n` equal `b`. -/
theorem pad_frame_layout (buf : List Nat) (n : Nat) (h : n ≤ 65535) :
    (pad buf n).length = 2 + n + buf.length ∧
    (pad buf n).getD 0 0 * 256 + (pad buf n).getD 1 0 = n ∧
    ((pad buf n).drop 2).take n = List.replicate n 0 ∧
    (pad buf n).drop (2 + n) = buf := by
  rw [pad_repr]
  refine ⟨?_, ?_, ?_, ?_⟩
  · simp only [List.cons_append, List.length_cons, List.length_append,
      List.length_replicate]
    omega
  · simp only [List.cons_append, List.getD_cons_zero, List.getD_cons_succ]
    omega
  · show (List.replicate n 0 ++ buf).take n = List.replicate n 0
    exact List.take_left' (List.length_replicate n 0)
  · rw [Nat.add_comm 2 n]
    show (List.replicate n 0 ++ buf).drop n = buf
    exact List.drop_left' (List.length_replicate n 0)

/-- Witness for C3 at `buf = [170, 187]`, `n = 3`. -/
theorem pad_frame_layout_witness :
    (pad [170, 187] 3).length = 2 + 3 + 2 ∧
    (pad [170, 187] 3).getD 0 0 * 256 + (pad [170, 187] 3).getD 1 0 = 3 ∧
    ((pad [170, 187] 3).drop 2).take 3 = List.replicate 3 0 ∧
    (pad [170, 187] 3).drop (2 + 3) = [170, 187] :=
  pad_frame_layout [170, 187] 3 (by decide)

/-- Each element's byte image has exactly `width` bytes. -/
lemma bytesLE_length (w : Nat) : ∀ v : Nat, (bytesLE w v).length = w := by
  induction w with
  | zero => intro v; rfl
  | succ n ih => intro v; simp [bytesLE, ih]

/-- Little-endian decode inverts the byte image of an in-range value. -/
lemma decodeLE_bytesLE (w : Nat) : ∀ v : Nat, v < 256 ^ w → decodeLE (bytesLE w v) = v := by
  induction w with
  | zero =>
    intro v hv
    simp only [pow_zero, Nat.lt_one_iff] at hv
    simp [hv, bytesLE, decodeLE]
  | succ n ih =>
    intro v hv
    show v % 256 + 256 * decodeLE (bytesLE n (v / 256)) = v
    rw [pow_succ] at hv
    rw [ih (v / 256) (by omega)]
    omega

/-- Reinterpretation of the empty byte list. -/
lemma chunkDecode_nil (w : Nat) : chunkDecode w [] = [] := by
  unfold chunkDecode
  simp

/-- Unfolding of reinterpretation on a non-empty byte list. -/
lemma chunkDecode_step (w : Nat) (bs : List Nat) (hw : w ≠ 0) (hbs : bs ≠ []) :
    chunkDecode w bs = decodeLE (bs.take w) :: chunkDecode w (bs.drop w) := by
  rw [chunkDecode]
  rw [dif_neg (by tauto)]

/-- Reinterpreting one array's bytes followed by a tail recovers its
elements followed by the reinterpreted tail. -/
lemma chunkDecode_elems_append (w : Nat) (hw : 0 < w) :
    ∀ es : List Nat, (∀ e ∈ es, e < 256 ^ w) → ∀ t : List Nat,
      chunkDecode w ((es.map (bytesLE w)).flatten ++ t) = es ++ chunkDecode w t
  | [], _, t => by simp
  | e :: rest, hes, t => by
    rw [List.map_cons, List.flatten_cons, List.append_assoc]
    have hne : bytesLE w e ++ ((rest.map (bytesLE w)).flatten ++ t) ≠ [] := by
      intro hh
      have : (bytesLE w e).length = w := bytesLE_length w e
      have h2 := congrArg List.length hh
      simp only [List.length_append, this, List.length_nil] at h2
      omega
    rw [chunkDecode_step w _ (by omega) hne,
      List.take_left' (bytesLE_length w e), List.drop_left' (bytesLE_length w e),
      decodeLE_bytesLE w e (hes e (List.mem_cons_self _ _)),
      chunkDecode_elems_append w hw rest (fun x hx => hes x (List.mem_cons_of_mem _ hx)) t]
    rfl

/-- Reinterpreting all merged bytes yields all elements in order. -/
lemma chunkDecode_flatten (w : Nat) (hw : 0 < w) :
    ∀ bufs : List JsTypedArray,
      (∀ a ∈ bufs, a.width = w) → (∀ a ∈ bufs, ∀ v ∈ a.elems, v < 256 ^ w) →
      chunkDecode w ((bufs.map arrayBytes).flatten) = (bufs.map JsTypedArray.elems).flatten
  | [], _, _ => by simp [chunkDecode_nil]
  | b :: rest, hwidth, hbound => by
    rw [List.map_cons, List.flatten_cons, List.map_cons, List.flatten_cons]
    have hbw : b.width = w := hwidth b (List.mem_cons_self _ _)
    have hab : arrayBytes b = (b.elems.map (bytesLE w)).flatten := by
      unfold arrayBytes
      rw [hbw]
    rw [hab,
      chunkDecode_elems_append w hw b.elems (hbound b (List.mem_cons_self _ _)) _,
      chunkDecode_flatten w hw rest (fun a ha => hwidth a (List.mem_cons_of_mem _ ha))
        (fun a ha => hbound a (List.mem_cons_of_mem _ ha))]

/-- C9: `concat()` with no buffers returns the no-result signal (not an
empty buffer); with one or more buffers of a common element type it returns
a buffer of the first input's element type holding all elements in argument
order, which is empty only when every input is empty. -/
theorem concat_spec :
    concat [] = none ∧
    (∀ (w : Nat) (bufs : List JsTypedArray), 0 < w → bufs ≠ [] →
      (∀ a ∈ bufs, a.width = w) → (∀ a ∈ bufs, ∀ v ∈ a.elems, v < 256 ^ w) →
      concat bufs = some ⟨w, (bufs.map JsTypedArray.elems).flatten⟩ ∧
      ((bufs.map JsTypedArray.elems).flatten = [] ↔ ∀ a ∈ bufs, a.elems = [])) := by
  refine ⟨rfl, ?_⟩
  intro w bufs hw hne hwidth hbound
  constructor
  · match bufs, hne with
    | b0 :: rest, _ =>
      have hcons : concat (b0 :: rest) =
          some ⟨b0.width, chunkDecode b0.width (((b0 :: rest).map arrayBytes).flatten)⟩ := rfl
      have hb0 : b0.width = w := hwidth b0 (List.mem_cons_self _ _)
      rw [hcons, hb0, chunkDecode_flatten w hw (b0 :: rest) hwidth hbound]
  · simp only [List.flatten_eq_nil_iff, List.mem_map]
    constructor
    · intro hall a ha
      exact hall a.elems ⟨a, ha, rfl⟩
    · rintro hall l ⟨a, ha, rfl⟩
      exact hall a ha

/-- Witness for C9 at three width-2 arrays (one empty). -/
theorem concat_spec_witness :
    concat [⟨2, [4660]⟩, ⟨2, []⟩, ⟨2, [22136, 39612]⟩] =
      some ⟨2, [4660, 22136, 39612]⟩ :=
  (concat_spec.2 2 [⟨2, [4660]⟩, ⟨2, []⟩, ⟨2, [22136, 39612]⟩]
    (by decide) (by decide) (by decide) (by decide)).1

/-! ### Facts about the data-URL parser -/

/-- The encoding token of a data URL: the part of the first comma-separated
segment (after the scheme) that follows the first `;`. -/
def encToken (s : List Char) : Option (List Char) :=
  (splitLimit2 ';' (splitLimit2 ',' (s.drop 5)).1).2

/-- C5: for a string with the `data:` prefix, `fromDataUrl` raises
`UnsupportedEncoding` — its message quoting the offending token — exactly
when the token after the MIME type differs from `base64`; the two concrete
examples parse to (`text/plain`, bytes of "Hello") and fail naming
`charset=utf-8` respectively. -/
theorem fromDataUrl_unsupported_iff :
    (∀ s : List Char, s.take 5 = "data:".data →
      (fromDataUrl s none =
          .error (.thrown ("Unsupported encoding: ".data ++ showOptStr (encToken s))) ↔
        encToken s ≠ some "base64".data)) ∧
    fromDataUrl "data:text/plain;base64,SGVsbG8=".data none =
      .ok ⟨"text/plain".data, [72, 101, 108, 108, 111]⟩ ∧
    fromDataUrl "data:text/plain;charset=utf-8,Hello".data none =
      .error (.thrown "Unsupported encoding: charset=utf-8".data) := by
  refine ⟨?_, by decide, by decide⟩
  intro s hpre
  unfold fromDataUrl
  rw [if_neg (fun hne => hne hpre)]
  unfold fromDataUrlBody encToken
  by_cases henc : (splitLimit2 ';' (splitLimit2 ',' (s.drop 5)).1).2 = some "base64".data
  · rw [if_neg (not_not_intro henc)]
    simp only [henc, ne_eq, not_true_eq_false, iff_false]
    unfold blobFromBase64
    rcases hd : b64Decode (showOptStr (splitLimit2 ',' (s.drop 5)).2) false with _ | bs <;>
      simp [hd]
  · rw [if_pos henc]
    exact iff_of_true rfl henc

/-- Witness for C5 at the concrete input "data:a;b,c" (token "b"). -/
theorem fromDataUrl_unsupported_iff_witness :
    fromDataUrl "data:a;b,c".data none =
      .error (.thrown ("Unsupported encoding: ".data ++
        showOptStr (encToken "data:a;b,c".data))) :=
  (fromDataUrl_unsupported_iff.1 "data:a;b,c".data (by decide)).mpr (by decide)

/-- C6 counterexample: "data:text/plain" begins with the scheme but lacks
the `type;encoding,payload` structure, yet `fromDataUrl` raises
`UnsupportedEncoding` ("Unsupported encoding: undefined"), not the
`InvalidFormat` error "Invalid data URL". -/
theorem fromDataUrl_missing_structure_not_invalid :
    fromDataUrl "data:text/plain".data none =
      .error (.thrown "Unsupported encoding: undefined".data) ∧
    fromDataUrl "data:text/plain".data none ≠
      .error (.thrown "Invalid data URL".data) := by
  exact ⟨by decide, by decide⟩

/-- C6 (amended): `fromDataUrl` raises `InvalidFormat` ("Invalid data URL")
exactly when the input does not begin with `data:`; an input with the
scheme prefix but a missing or wrong structure fails differently —
`UnsupportedEncoding` when the token after the MIME type is missing (read
as `undefined`) or not `base64`, and otherwise `atob`'s
`InvalidCharacterError`: a missing payload reaches `atob` as `undefined`,
WebIDL-coerced to the 9-character string "undefined", whose length
≡ 1 mod 4 makes `atob` throw. -/
theorem fromDataUrl_invalid_iff :
    (∀ (s : List Char) (ft : Option (List Char)),
      fromDataUrl s ft = .error (.thrown "Invalid data URL".data) ↔
        s.take 5 ≠ "data:".data) ∧
    fromDataUrl "data:x;base64".data none = .error .invalidCharacter := by
  refine ⟨?_, by decide⟩
  intro s ft
  unfold fromDataUrl
  by_cases hpre : s.take 5 = "data:".data
  · rw [if_neg (fun hne => hne hpre)]
    simp only [hpre, ne_eq, not_true_eq_false, iff_false]
    unfold fromDataUrlBody
    by_cases henc : (splitLimit2 ';' (splitLimit2 ',' (s.drop 5)).1).2 = some "base64".data
    · rw [if_neg (not_not_intro henc)]
      unfold blobFromBase64
      rcases hd : b64Decode (showOptStr (splitLimit2 ',' (s.drop 5)).2) false with _ | bs <;>
        simp [hd]
    · rw [if_pos henc]
      intro hcontra
      simp only [Except.error.injEq, JsError.thrown.injEq] at hcontra
      have hhead := congrArg (fun l => l.getD 0 ' ') hcontra
      simp [List.getD] at hhead
  · rw [if_pos hpre]
    exact iff_of_true rfl hpre

/-- Witness for the amended C6 theorem at the concrete inputs "nope" (no
scheme) and "data:x" (scheme present). -/
theorem fromDataUrl_invalid_iff_witness :
    fromDataUrl "nope".data none = .error (.thrown "Invalid data URL".data) ∧
    fromDataUrl "data:x".data none ≠ .error (.thrown "Invalid data URL".data) :=
  ⟨(fromDataUrl_invalid_iff.1 "nope".data none).mpr (by decide),
   fun hh => absurd ((fromDataUrl_invalid_iff.1 "data:x".data none).mp hh) (by decide)⟩

end Tilworth
